import Mathlib

/-!
Shallow embedding of the `uhttp_sse` crate (src/lib.rs): incremental Server-Sent
Events encoding onto a caller-supplied byte sink.

The sink (the `W : Write` parameter of `SseMessage` / `SseField`) is modelled as
an oracle deciding the outcome of each `write` / `flush` call, together with a
state recording the bytes that reached the sink and the trace of operations the
writer layer issued to it.  Bytes are natural numbers; `58` is ASCII `:` and
`10` is ASCII `\n`.
-/

/-- A byte string, as a list of byte values. -/
abbrev Bytes := List Nat

/-- An operation the writer layer can issue to the underlying sink
(`std::io::Write`): a `write` call with a chunk, or a `flush` call. -/
inductive SinkOp
  | write (chunk : Bytes)
  | flush
deriving DecidableEq

/-- Behaviour of a caller-supplied sink.  `onWrite i c` is the outcome of the
`i`-th operation when it is `write(c)`: `none` models `Err(IoError)`, `some n`
models `Ok(n)` (`n` is clamped to `c.length`, per the `Write` contract that a
successful write reports at most the buffer length).  `onFlush i` is `true`
when the `i`-th operation, a `flush`, succeeds. -/
structure Sink where
  onWrite : Nat → Bytes → Option Nat
  onFlush : Nat → Bool

/-- The sink's observable state: its behaviour, the number of operations issued
so far, the bytes that reached it, and the trace of issued operations. -/
structure SinkState where
  sink : Sink
  ops : Nat
  buf : Bytes
  trace : List SinkOp

/-- A fresh sink state: nothing written, nothing issued. -/
def initState (sk : Sink) : SinkState := ⟨sk, 0, [], []⟩

/-- A sink on which every `write` accepts the whole chunk and every `flush`
succeeds. -/
def okSink : Sink := ⟨fun _ c => some c.length, fun _ => true⟩

/-- A sink on which every `write` and every `flush` fails with an I/O error. -/
def failSink : Sink := ⟨fun _ _ => none, fun _ => false⟩

/-- One raw `Write::write` call on the sink: the oracle decides the outcome,
the accepted prefix of the chunk reaches the sink, and the call is recorded in
the trace either way. -/
def sinkWrite (s : SinkState) (chunk : Bytes) : Option Nat × SinkState :=
  match s.sink.onWrite s.ops chunk with
  | some n =>
      (some (min n chunk.length),
        ⟨s.sink, s.ops + 1, s.buf ++ chunk.take (min n chunk.length),
          s.trace ++ [SinkOp.write chunk]⟩)
  | none => (none, ⟨s.sink, s.ops + 1, s.buf, s.trace ++ [SinkOp.write chunk]⟩)

/-- One raw `Write::flush` call on the sink. -/
def sinkFlush (s : SinkState) : Bool × SinkState :=
  (s.sink.onFlush s.ops, ⟨s.sink, s.ops + 1, s.buf, s.trace ++ [SinkOp.flush]⟩)

/-- The loop of `Write::write_all`, structurally recursive on a fuel bound:
while bytes remain, `write` them; `Ok(0)` is a `WriteZero` error, an `Err`
aborts, otherwise continue with the unwritten suffix.  Every successful
iteration consumes at least one byte, so fuel `chunk.length` is always enough
(`writeAllF_fuel`); the out-of-fuel branch is unreachable from `writeAll`. -/
def writeAllF : Nat → Bytes → SinkState → Bool × SinkState
  | _, [], s => (true, s)
  | 0, _ :: _, s => (false, s)
  | fuel+1, b :: rest, s =>
    match sinkWrite s (b :: rest) with
    | (none, s1) => (false, s1)
    | (some 0, s1) => (false, s1)
    | (some (n+1), s1) => writeAllF fuel ((b :: rest).drop (n+1)) s1

/-- Rust `Write::write_all`, as used by the `write!` calls in `SseField::new`. -/
def writeAll (chunk : Bytes) (s : SinkState) : Bool × SinkState :=
  writeAllF chunk.length chunk s

/-- The field names of the SSE protocol: the closed set reachable through the
public operations of `SseMessage`. -/
inductive FieldName
  | data
  | event
  | id
  | retry
deriving DecidableEq

/-- The bytes of each field name ("data", "event", "id", "retry"). -/
def fieldNameBytes : FieldName → Bytes
  | .data => [100, 97, 116, 97]
  | .event => [101, 118, 101, 110, 116]
  | .id => [105, 100]
  | .retry => [114, 101, 116, 114, 121]

/-- Embedding of `SseField::new(stream, name)`: `write!(stream, "{}:", name)` performs
`write_all(name)` then `write_all(":")`; `try!` propagates a failure, in which
case no `SseField` value is produced.  `true` in the result means a field
writer was returned to the caller. -/
def sseFieldNew (nb : Bytes) (s : SinkState) : Bool × SinkState :=
  match writeAll nb s with
  | (true, s1) => writeAll [58] s1
  | (false, s1) => (false, s1)

/-- Embedding of `<SseField as Write>::write`: forwards the chunk to the sink in a single
`write` call and returns the sink's result unchanged. -/
def sseFieldWrite (chunk : Bytes) (s : SinkState) : Option Nat × SinkState :=
  sinkWrite s chunk

/-- Embedding of `<SseField as Write>::flush`: forwards to the sink's `flush`, returning its
result unchanged. -/
def sseFieldFlush (s : SinkState) : Bool × SinkState :=
  sinkFlush s

/-- Embedding of `Drop for SseField`: `self.0.write(b"\n").is_ok();` — one raw write of the
newline byte, with the result discarded. -/
def sseFieldDrop (s : SinkState) : SinkState :=
  (sinkWrite s [10]).2

/-- Embedding of `SseMessage::new(stream)`: wraps the sink, performing no I/O. -/
def sseMessageNew (s : SinkState) : SinkState := s

/-- Embedding of `Drop for SseMessage`: `self.0.write(&b"\n"[..]).is_ok(); self.0.flush().is_ok();`
— one raw write of the newline byte and one flush, both results discarded. -/
def sseMessageDrop (s : SinkState) : SinkState :=
  (sinkFlush (sinkWrite s [10]).2).2

/-- Embedding of `SseMessage::data`: `SseField::new(&mut self.0, "data")`. -/
def msgData (s : SinkState) : Bool × SinkState :=
  sseFieldNew (fieldNameBytes .data) s

/-- Embedding of `SseMessage::event`: `SseField::new(&mut self.0, "event")`. -/
def msgEvent (s : SinkState) : Bool × SinkState :=
  sseFieldNew (fieldNameBytes .event) s

/-- Embedding of `SseMessage::id`: `SseField::new(&mut self.0, "id")`. -/
def msgId (s : SinkState) : Bool × SinkState :=
  sseFieldNew (fieldNameBytes .id) s

/-- Embedding of `SseMessage::retry`: `SseField::new(&mut self.0, "retry")`. -/
def msgRetry (s : SinkState) : Bool × SinkState :=
  sseFieldNew (fieldNameBytes .retry) s

/-- Dispatch over the four field-selection operations of `SseMessage`. -/
def msgField : FieldName → SinkState → Bool × SinkState
  | .data => msgData
  | .event => msgEvent
  | .id => msgId
  | .retry => msgRetry

/-- A sequence of `<SseField as Write>::write` calls on one open field writer,
in call order. -/
def writeChunks (cs : List Bytes) (s : SinkState) : SinkState :=
  cs.foldl (fun st c => (sseFieldWrite c st).2) s

/-- One complete field of a message: open it with the named field-selection
operation; if that succeeded, write the value once and release the field
writer; if opening failed, no field writer exists and nothing further runs. -/
def writeField (n : FieldName) (v : Bytes) (s : SinkState) : SinkState :=
  match msgField n s with
  | (true, s1) => sseFieldDrop (sseFieldWrite v s1).2
  | (false, s1) => s1

/-- One complete message: create the `SseMessage`, write the given fields in
order, then release it. -/
def runMessage (fields : List (FieldName × Bytes)) (s : SinkState) : SinkState :=
  sseMessageDrop (fields.foldl (fun st p => writeField p.1 p.2 st) (sseMessageNew s))

/-- The wire encoding of one field: `name ":" value "\n"`. -/
def encodeField (p : FieldName × Bytes) : Bytes :=
  fieldNameBytes p.1 ++ [58] ++ p.2 ++ [10]

/-- The wire encoding of a whole message: its fields followed by the message
terminator `"\n"`. -/
def encodeMessage (fields : List (FieldName × Bytes)) : Bytes :=
  (fields.map encodeField).flatten ++ [10]

example :
    (runMessage [(.event, [112, 105, 110, 103]), (.data, [97, 98, 99])]
      (initState okSink)).buf =
    [101, 118, 101, 110, 116, 58, 112, 105, 110, 103, 10,
     100, 97, 116, 97, 58, 97, 98, 99, 10, 10] := by
  decide

example :
    (runMessage [(.id, [52, 50])] (initState okSink)).buf =
    encodeMessage [(.id, [52, 50])] := by
  decide

/-! ### Basic facts about the raw sink operations -/

/-- A raw write either fails leaving the bytes untouched, or accepts a prefix
of the chunk; in both cases it records the call and preserves the behaviour. -/
theorem sinkWrite_inv (s : SinkState) (c : Bytes) :
    sinkWrite s c = (none, ⟨s.sink, s.ops + 1, s.buf, s.trace ++ [SinkOp.write c]⟩) ∨
    (∃ n, n ≤ c.length ∧
      sinkWrite s c =
        (some n, ⟨s.sink, s.ops + 1, s.buf ++ c.take n, s.trace ++ [SinkOp.write c]⟩)) := by
  unfold sinkWrite
  cases s.sink.onWrite s.ops c with
  | none => exact Or.inl rfl
  | some n => exact Or.inr ⟨min n c.length, Nat.min_le_right _ _, rfl⟩

/-- The state left by a raw write: behaviour preserved, exactly the one call
recorded in the trace. -/
theorem sinkWrite_snd (s : SinkState) (c : Bytes) :
    (sinkWrite s c).2.sink = s.sink ∧
    (sinkWrite s c).2.trace = s.trace ++ [SinkOp.write c] := by
  rcases sinkWrite_inv s c with h | ⟨n, _, h⟩ <;> rw [h]
  · exact ⟨rfl, rfl⟩
  · exact ⟨rfl, rfl⟩

/-- The specification of the `write_all` loop, at any fuel: the sink behaviour
is preserved, the trace grows by write calls only, and the bytes reaching the
sink are a prefix of the chunk — the whole chunk when the loop succeeds. -/
theorem writeAllF_spec : ∀ (fuel : Nat) (c : Bytes) (s : SinkState),
    (writeAllF fuel c s).2.sink = s.sink ∧
    (∃ l, (writeAllF fuel c s).2.trace = s.trace ++ l ∧
      ∀ e ∈ l, ∃ ch, e = SinkOp.write ch) ∧
    (∃ p t, p ++ t = c ∧ (writeAllF fuel c s).2.buf = s.buf ++ p ∧
      ((writeAllF fuel c s).1 = true → t = [])) := by
  intro fuel
  induction fuel with
  | zero =>
    intro c s
    cases c with
    | nil =>
      refine ⟨rfl, ⟨[], by simp [writeAllF], by simp⟩, [], [], rfl, by simp [writeAllF], ?_⟩
      intro; rfl
    | cons b rest =>
      refine ⟨rfl, ⟨[], by simp [writeAllF], by simp⟩, [], b :: rest, rfl,
        by simp [writeAllF], ?_⟩
      simp [writeAllF]
  | succ fuel ih =>
    intro c s
    cases c with
    | nil =>
      refine ⟨rfl, ⟨[], by simp [writeAllF], by simp⟩, [], [], rfl, by simp [writeAllF], ?_⟩
      intro; rfl
    | cons b rest =>
      rcases sinkWrite_inv s (b :: rest) with hw | ⟨n, hn, hw⟩
      · refine ⟨?_, ⟨[SinkOp.write (b :: rest)], ?_, ?_⟩,
          [], b :: rest, rfl, ?_, ?_⟩ <;>
          simp [writeAllF, hw]
      · cases n with
        | zero =>
          refine ⟨?_, ⟨[SinkOp.write (b :: rest)], ?_, ?_⟩,
            [], b :: rest, rfl, ?_, ?_⟩ <;>
            simp [writeAllF, hw]
        | succ m =>
          have hdef : writeAllF (fuel + 1) (b :: rest) s =
              writeAllF fuel ((b :: rest).drop (m + 1))
                ⟨s.sink, s.ops + 1, s.buf ++ (b :: rest).take (m + 1),
                  s.trace ++ [SinkOp.write (b :: rest)]⟩ := by
            simp [writeAllF, hw]
          obtain ⟨ihs, ⟨l, hl, hlw⟩, p, t, hpt, hbuf, hfull⟩ :=
            ih ((b :: rest).drop (m + 1))
              ⟨s.sink, s.ops + 1, s.buf ++ (b :: rest).take (m + 1),
                s.trace ++ [SinkOp.write (b :: rest)]⟩
          rw [hdef]
          refine ⟨ihs, ⟨SinkOp.write (b :: rest) :: l, ?_, ?_⟩,
            (b :: rest).take (m + 1) ++ p, t, ?_, ?_, hfull⟩
          · rw [hl]; simp
          · intro e he
            rcases List.mem_cons.mp he with rfl | he
            · exact ⟨b :: rest, rfl⟩
            · exact hlw e he
          · rw [List.append_assoc, hpt, List.take_append_drop]
          · rw [hbuf]; simp

/-- Fuel adequacy: every iteration of the loop consumes at least one byte, so
any fuel of at least `chunk.length` gives the same result — the out-of-fuel
branch of `writeAllF` is unreachable from `writeAll`, which therefore models
the unbounded `write_all` loop faithfully. -/
theorem writeAllF_fuel : ∀ (f1 f2 : Nat) (c : Bytes) (s : SinkState),
    c.length ≤ f1 → c.length ≤ f2 → writeAllF f1 c s = writeAllF f2 c s := by
  intro f1
  induction f1 with
  | zero =>
    intro f2 c s h1 _
    cases c with
    | nil => cases f2 <;> rfl
    | cons b rest => simp at h1
  | succ g1 ih =>
    intro f2 c s h1 h2
    cases c with
    | nil => cases f2 <;> rfl
    | cons b rest =>
      cases f2 with
      | zero => simp at h2
      | succ g2 =>
        rcases hw : sinkWrite s (b :: rest) with ⟨r, s1⟩
        cases r with
        | none => simp [writeAllF, hw]
        | some m =>
          cases m with
          | zero => simp [writeAllF, hw]
          | succ k =>
            have hk : k + 1 ≤ (b :: rest).length := by
              rcases sinkWrite_inv s (b :: rest) with hinv | ⟨n, hn, hinv⟩
              · rw [hinv] at hw
                exact absurd (congrArg Prod.fst hw) (by simp)
              · rw [hinv] at hw
                have : n = k + 1 := by
                  have := congrArg Prod.fst hw
                  simpa using this
                omega
            have hd : ((b :: rest).drop (k + 1)).length ≤ g1 := by
              simp only [List.length_drop, List.length_cons]
              simp only [List.length_cons] at h1
              omega
            have hd2 : ((b :: rest).drop (k + 1)).length ≤ g2 := by
              simp only [List.length_drop, List.length_cons]
              simp only [List.length_cons] at h2
              omega
            simp only [writeAllF, hw]
            exact ih g2 _ s1 hd hd2

/-- The function `writeAll` inherits the `writeAllF` specification at fuel `chunk.length`. -/
theorem writeAll_spec (c : Bytes) (s : SinkState) :
    (writeAll c s).2.sink = s.sink ∧
    (∃ l, (writeAll c s).2.trace = s.trace ++ l ∧
      ∀ e ∈ l, ∃ ch, e = SinkOp.write ch) ∧
    (∃ p t, p ++ t = c ∧ (writeAll c s).2.buf = s.buf ++ p ∧
      ((writeAll c s).1 = true → t = [])) :=
  writeAllF_spec c.length c s

/-- A successful `write_all` puts exactly the whole chunk after the existing
bytes. -/
theorem writeAll_true_buf (c : Bytes) (s : SinkState) (h : (writeAll c s).1 = true) :
    (writeAll c s).2.buf = s.buf ++ c := by
  obtain ⟨p, t, hpt, hbuf, hfull⟩ := (writeAll_spec c s).2.2
  rw [hfull h, List.append_nil] at hpt
  rw [hbuf, hpt]

/-- On the always-succeeding sink, a raw write accepts the whole chunk. -/
theorem sinkWrite_okSink (c : Bytes) (s : SinkState) (h : s.sink = okSink) :
    sinkWrite s c =
      (some c.length,
        ⟨okSink, s.ops + 1, s.buf ++ c, s.trace ++ [SinkOp.write c]⟩) := by
  simp [sinkWrite, h, okSink]

/-- On the always-failing sink, a raw write delivers nothing but is still
recorded. -/
theorem sinkWrite_failSink (c : Bytes) (s : SinkState) (h : s.sink = failSink) :
    sinkWrite s c =
      (none, ⟨failSink, s.ops + 1, s.buf, s.trace ++ [SinkOp.write c]⟩) := by
  simp [sinkWrite, h, failSink]

/-- On the always-succeeding sink, `write_all` succeeds in one call. -/
theorem writeAll_okSink (c : Bytes) (s : SinkState) (h : s.sink = okSink) :
    writeAll c s =
      (true, if c = [] then s
        else ⟨okSink, s.ops + 1, s.buf ++ c, s.trace ++ [SinkOp.write c]⟩) := by
  cases c with
  | nil => simp [writeAll, writeAllF]
  | cons b rest =>
    have hd : (b :: rest).drop (rest.length + 1) = [] := by
      rw [List.drop_succ_cons, List.drop_length]
    have hw := sinkWrite_okSink (b :: rest) s h
    simp [writeAll, writeAllF, hw, hd]

/-- The pieces of `writeAll_okSink` used below. -/
theorem writeAll_okSink_parts (c : Bytes) (s : SinkState) (h : s.sink = okSink) :
    (writeAll c s).1 = true ∧ (writeAll c s).2.buf = s.buf ++ c ∧
    (writeAll c s).2.sink = okSink := by
  rw [writeAll_okSink c s h]
  by_cases hc : c = [] <;> simp [hc, h]

/-! ### Opening a field -/

/-- Opening a field (`SseField::new`) on any sink: the behaviour is preserved, only write calls
are issued, and the bytes delivered are a prefix of `name ++ ":"` — all of it
exactly when a field writer is produced. -/
theorem sseFieldNew_spec (nb : Bytes) (s : SinkState) :
    (sseFieldNew nb s).2.sink = s.sink ∧
    (∃ l, (sseFieldNew nb s).2.trace = s.trace ++ l ∧
      ∀ e ∈ l, ∃ ch, e = SinkOp.write ch) ∧
    (∃ p t, p ++ t = nb ++ [58] ∧ (sseFieldNew nb s).2.buf = s.buf ++ p ∧
      ((sseFieldNew nb s).1 = true → t = [])) := by
  obtain ⟨hs1, ⟨l1, hl1, hw1⟩, p1, t1, hpt1, hbuf1, hfull1⟩ := writeAll_spec nb s
  rcases hw : writeAll nb s with ⟨b1, s1⟩
  rw [hw] at hs1 hl1 hbuf1 hfull1
  cases b1 with
  | false =>
    have hres : sseFieldNew nb s = (false, s1) := by
      unfold sseFieldNew; rw [hw]
    rw [hres]
    refine ⟨hs1, ⟨l1, hl1, hw1⟩, p1, t1 ++ [58], ?_, hbuf1, by simp⟩
    rw [← List.append_assoc, hpt1]
  | true =>
    have ht1 : t1 = [] := hfull1 rfl
    rw [ht1, List.append_nil] at hpt1
    subst hpt1
    obtain ⟨hs2, ⟨l2, hl2, hw2⟩, p2, t2, hpt2, hbuf2, hfull2⟩ := writeAll_spec [58] s1
    have hres : sseFieldNew p1 s = writeAll [58] s1 := by
      unfold sseFieldNew; rw [hw]
    rw [hres]
    refine ⟨hs2.trans hs1, ⟨l1 ++ l2, ?_, ?_⟩, p1 ++ p2, t2, ?_, ?_, hfull2⟩
    · rw [hl2, hl1, List.append_assoc]
    · intro e he
      rcases List.mem_append.mp he with he | he
      · exact hw1 e he
      · exact hw2 e he
    · rw [List.append_assoc, hpt2]
    · rw [hbuf2, hbuf1, List.append_assoc]

/-- Opening a field (`SseField::new`) on the always-succeeding sink: a field writer is produced
and exactly `name ++ ":"` is appended. -/
theorem sseFieldNew_okSink_parts (nb : Bytes) (s : SinkState) (h : s.sink = okSink) :
    (sseFieldNew nb s).1 = true ∧
    (sseFieldNew nb s).2.buf = s.buf ++ nb ++ [58] ∧
    (sseFieldNew nb s).2.sink = okSink := by
  obtain ⟨h1, h2, h3⟩ := writeAll_okSink_parts nb s h
  rcases hw : writeAll nb s with ⟨b1, s1⟩
  rw [hw] at h1 h2 h3
  subst h1
  obtain ⟨g1, g2, g3⟩ := writeAll_okSink_parts [58] s1 h3
  have hres : sseFieldNew nb s = writeAll [58] s1 := by
    unfold sseFieldNew; rw [hw]
  rw [hres]
  exact ⟨g1, by rw [g2, h2], g3⟩

/-- The four field-selection operations are `SseField::new` at the respective
literal name. -/
theorem msgField_eq (n : FieldName) (s : SinkState) :
    msgField n s = sseFieldNew (fieldNameBytes n) s := by
  cases n <;> rfl

/-! ### Releasing writers, complete fields, complete messages -/

/-- Releasing a field writer on the always-succeeding sink appends exactly the
newline byte. -/
theorem sseFieldDrop_okSink (s : SinkState) (h : s.sink = okSink) :
    (sseFieldDrop s).buf = s.buf ++ [10] ∧ (sseFieldDrop s).sink = okSink := by
  unfold sseFieldDrop
  rw [sinkWrite_okSink [10] s h]
  exact ⟨rfl, rfl⟩

/-- Releasing a message writer on the always-succeeding sink appends exactly
the newline byte and issues the terminator write followed by the flush. -/
theorem sseMessageDrop_okSink (s : SinkState) (h : s.sink = okSink) :
    (sseMessageDrop s).buf = s.buf ++ [10] ∧
    (sseMessageDrop s).trace = s.trace ++ [SinkOp.write [10], SinkOp.flush] ∧
    (sseMessageDrop s).sink = okSink := by
  unfold sseMessageDrop
  rw [sinkWrite_okSink [10] s h]
  simp [sinkFlush]

/-- A complete field on the always-succeeding sink appends exactly its wire
encoding `name ":" value "\n"`. -/
theorem writeField_okSink (n : FieldName) (v : Bytes) (s : SinkState)
    (h : s.sink = okSink) :
    (writeField n v s).buf = s.buf ++ encodeField (n, v) ∧
    (writeField n v s).sink = okSink := by
  obtain ⟨h1, h2, h3⟩ := sseFieldNew_okSink_parts (fieldNameBytes n) s h
  rcases hw : sseFieldNew (fieldNameBytes n) s with ⟨b1, s1⟩
  rw [hw] at h1 h2 h3
  subst h1
  have hres : writeField n v s = sseFieldDrop (sseFieldWrite v s1).2 := by
    unfold writeField
    rw [msgField_eq, hw]
  rw [hres]
  unfold sseFieldWrite
  rw [sinkWrite_okSink v s1 h3]
  obtain ⟨db, ds⟩ := sseFieldDrop_okSink
    ⟨okSink, s1.ops + 1, s1.buf ++ v, s1.trace ++ [SinkOp.write v]⟩ rfl
  refine ⟨?_, ds⟩
  rw [db]
  have h2b : s1.buf = s.buf ++ fieldNameBytes n ++ [58] := h2
  simp [h2b, encodeField, List.append_assoc]

/-- Writing a list of fields in order on the always-succeeding sink appends the
concatenation of their encodings. -/
theorem foldFields_okSink (fields : List (FieldName × Bytes)) :
    ∀ s : SinkState, s.sink = okSink →
      (fields.foldl (fun st p => writeField p.1 p.2 st) s).buf =
        s.buf ++ (fields.map encodeField).flatten ∧
      (fields.foldl (fun st p => writeField p.1 p.2 st) s).sink = okSink := by
  induction fields with
  | nil => intro s h; simp [h]
  | cons f fs ih =>
    intro s h
    obtain ⟨n, v⟩ := f
    obtain ⟨hb, hs⟩ := writeField_okSink n v s h
    obtain ⟨ihb, ihs⟩ := ih (writeField n v s) hs
    constructor
    · simp only [List.foldl_cons]
      rw [ihb, hb]
      simp [List.append_assoc]
    · simp only [List.foldl_cons]
      exact ihs

/-- A sequence of value writes on one open field issues exactly one `write`
call per chunk, in order, on any sink. -/
theorem writeChunks_trace (cs : List Bytes) :
    ∀ s : SinkState, (writeChunks cs s).trace = s.trace ++ cs.map SinkOp.write := by
  induction cs with
  | nil => intro s; simp [writeChunks]
  | cons c cs ih =>
    intro s
    have step : (sseFieldWrite c s).2.trace = s.trace ++ [SinkOp.write c] := by
      unfold sseFieldWrite
      exact (sinkWrite_snd s c).2
    simp only [writeChunks, List.foldl_cons] at ih ⊢
    rw [ih, step]
    simp

/-- A sequence of value writes on one open field, on the always-succeeding
sink, delivers exactly the concatenation of the chunks. -/
theorem writeChunks_okSink (cs : List Bytes) :
    ∀ s : SinkState, s.sink = okSink →
      (writeChunks cs s).buf = s.buf ++ cs.flatten ∧
      (writeChunks cs s).sink = okSink := by
  induction cs with
  | nil => intro s h; simp [writeChunks, h]
  | cons c cs ih =>
    intro s h
    have step : (sseFieldWrite c s).2 =
        ⟨okSink, s.ops + 1, s.buf ++ c, s.trace ++ [SinkOp.write c]⟩ := by
      unfold sseFieldWrite
      rw [sinkWrite_okSink c s h]
    simp only [writeChunks, List.foldl_cons] at ih ⊢
    rw [step]
    obtain ⟨ihb, ihs⟩ := ih ⟨okSink, s.ops + 1, s.buf ++ c, s.trace ++ [SinkOp.write c]⟩ rfl
    constructor
    · rw [ihb]
      simp [List.append_assoc]
    · exact ihs

/-! ### The claims -/

/-- C1: for every sequence of fields `(n1,v1), …, (nk,vk)` with each name in
`{data, event, id, retry}` and each value free of `\n` bytes, opening the
fields in that order on one message writer, writing each value, releasing each
field writer before opening the next, and then releasing the message writer,
with all sink writes succeeding in full, emits exactly
`concat(ni ++ ":" ++ vi ++ "\n") ++ "\n"` to the sink. -/
theorem claim1_message_encoding (fields : List (FieldName × Bytes))
    (_hv : ∀ p ∈ fields, (10 : Nat) ∉ p.2) :
    (runMessage fields (initState okSink)).buf = encodeMessage fields := by
  obtain ⟨hb, hs⟩ := foldFields_okSink fields (initState okSink) rfl
  obtain ⟨mb, _, _⟩ := sseMessageDrop_okSink
    (fields.foldl (fun st p => writeField p.1 p.2 st) (initState okSink)) hs
  unfold runMessage sseMessageNew
  rw [mb, hb]
  simp [encodeMessage, initState]

/-- Witness for C1: the doc-comment scenario, event `"ping"` with data
`"abc"`. -/
theorem claim1_message_encoding_witness :
    (∀ p ∈ [((FieldName.event : FieldName), [112, 105, 110, 103]),
            (FieldName.data, [97, 98, 99])], (10 : Nat) ∉ p.2) ∧
    (runMessage [(FieldName.event, [112, 105, 110, 103]),
                 (FieldName.data, [97, 98, 99])] (initState okSink)).buf =
      encodeMessage [(FieldName.event, [112, 105, 110, 103]),
                     (FieldName.data, [97, 98, 99])] :=
  ⟨by decide, claim1_message_encoding _ (by decide)⟩

/-- C2: for every name in `{data, event, id, retry}` and every value free of
`\n`, writing that single field into an otherwise-empty message, with all sink
writes succeeding, puts exactly `name ++ ":" ++ value ++ "\n"` on the sink —
this is the state before the message terminator is written (before
`sseMessageDrop` runs). -/
theorem claim2_single_field (n : FieldName) (v : Bytes) (_hv : (10 : Nat) ∉ v) :
    (writeField n v (initState okSink)).buf =
      fieldNameBytes n ++ [58] ++ v ++ [10] := by
  obtain ⟨hb, _⟩ := writeField_okSink n v (initState okSink) rfl
  rw [hb]
  simp [initState, encodeField]

/-- Witness for C2: field `id` with value `"42"`. -/
theorem claim2_single_field_witness :
    ((10 : Nat) ∉ [52, 50]) ∧
    (writeField FieldName.id [52, 50] (initState okSink)).buf =
      fieldNameBytes FieldName.id ++ [58] ++ [52, 50] ++ [10] :=
  ⟨by decide, claim2_single_field FieldName.id [52, 50] (by decide)⟩

/-- C3: on an open field writer, writing a sequence of chunks (every write
accepted in full) delivers exactly their concatenation, each chunk forwarded
to the sink unmodified in one `write` call, in call order, with nothing
inserted between chunks; in particular writing `c1` then `c2` delivers the
same value bytes as writing the single chunk `c1 ++ c2`. -/
theorem claim3_chunks_concat (cs : List Bytes) (c1 c2 : Bytes) (s : SinkState)
    (h : s.sink = okSink) :
    (writeChunks cs s).buf = s.buf ++ cs.flatten ∧
    (writeChunks cs s).trace = s.trace ++ cs.map SinkOp.write ∧
    (writeChunks [c1, c2] s).buf = (writeChunks [c1 ++ c2] s).buf := by
  obtain ⟨hb, _⟩ := writeChunks_okSink cs s h
  obtain ⟨hb2, _⟩ := writeChunks_okSink [c1, c2] s h
  obtain ⟨hb3, _⟩ := writeChunks_okSink [c1 ++ c2] s h
  refine ⟨hb, writeChunks_trace cs s, ?_⟩
  rw [hb2, hb3]
  simp

/-- Witness for C3: chunks `"abc"` then `"1337"` on a fresh always-succeeding
sink. -/
theorem claim3_chunks_concat_witness :
    ((initState okSink).sink = okSink) ∧
    ((writeChunks [[97, 98, 99], [49, 51, 51, 55]] (initState okSink)).buf =
        (initState okSink).buf ++ [[97, 98, 99], [49, 51, 51, 55]].flatten ∧
      (writeChunks [[97, 98, 99], [49, 51, 51, 55]] (initState okSink)).trace =
        (initState okSink).trace ++
          [[97, 98, 99], [49, 51, 51, 55]].map SinkOp.write ∧
      (writeChunks [[97, 98, 99], [49, 51, 51, 55]] (initState okSink)).buf =
        (writeChunks [[97, 98, 99] ++ [49, 51, 51, 55]] (initState okSink)).buf) :=
  ⟨rfl, claim3_chunks_concat [[97, 98, 99], [49, 51, 51, 55]]
    [97, 98, 99] [49, 51, 51, 55] (initState okSink) rfl⟩

/-- C4: releasing a writer always writes its terminator, as its last
observable side effect, whatever the sink does and however the caller got
there: a released field writer issues exactly one further `write` of `"\n"`,
and a released message writer issues exactly a `write` of `"\n"` followed by a
`flush`, on every sink state whatsoever. -/
theorem claim4_release_terminator (s : SinkState) :
    (sseFieldDrop s).trace = s.trace ++ [SinkOp.write [10]] ∧
    (sseMessageDrop s).trace = s.trace ++ [SinkOp.write [10], SinkOp.flush] := by
  refine ⟨(sinkWrite_snd s [10]).2, ?_⟩
  have h1 := (sinkWrite_snd s [10]).2
  unfold sseMessageDrop
  simp [sinkFlush, h1]

/-- C5: finalization-time sink failures are swallowed: on a sink whose every
write and flush fails, releasing a field or message writer still completes and
returns only the new sink state (no error value exists to surface), delivers
no byte, and the message release still goes on to attempt the flush after the
failed terminator write. -/
theorem claim5_finalize_errors_swallowed (s : SinkState) (h : s.sink = failSink) :
    (sseFieldDrop s).buf = s.buf ∧
    (sseFieldDrop s).trace = s.trace ++ [SinkOp.write [10]] ∧
    (sseMessageDrop s).buf = s.buf ∧
    (sseMessageDrop s).trace = s.trace ++ [SinkOp.write [10], SinkOp.flush] := by
  have hw := sinkWrite_failSink [10] s h
  refine ⟨?_, (sinkWrite_snd s [10]).2, ?_, ?_⟩
  · unfold sseFieldDrop
    rw [hw]
  · unfold sseMessageDrop
    rw [hw]
    simp [sinkFlush]
  · unfold sseMessageDrop
    rw [hw]
    simp [sinkFlush]

/-- Witness for C5: the fresh always-failing sink. -/
theorem claim5_finalize_errors_swallowed_witness :
    ((initState failSink).sink = failSink) ∧
    ((sseFieldDrop (initState failSink)).buf = (initState failSink).buf ∧
      (sseFieldDrop (initState failSink)).trace =
        (initState failSink).trace ++ [SinkOp.write [10]] ∧
      (sseMessageDrop (initState failSink)).buf = (initState failSink).buf ∧
      (sseMessageDrop (initState failSink)).trace =
        (initState failSink).trace ++ [SinkOp.write [10], SinkOp.flush]) :=
  ⟨rfl, claim5_finalize_errors_swallowed (initState failSink) rfl⟩

/-- C6: when opening a field fails (the prefix write to the sink fails), the
operation reports the error and no field writer is produced: the
complete-field routine does nothing beyond the failed open — in particular no
terminating newline is ever written for that attempt — the sink behaviour is
unchanged, so a fresh open attempt is possible, and the sink holds only a
prefix of `name ++ ":"` beyond what it already held. -/
theorem claim6_open_failure (n : FieldName) (v : Bytes) (s : SinkState)
    (h : (msgField n s).1 = false) :
    writeField n v s = (msgField n s).2 ∧
    (msgField n s).2.sink = s.sink ∧
    (∃ p t, p ++ t = fieldNameBytes n ++ [58] ∧
      (msgField n s).2.buf = s.buf ++ p) := by
  obtain ⟨hs, _, p, t, hpt, hbuf, _⟩ := sseFieldNew_spec (fieldNameBytes n) s
  rw [← msgField_eq] at hs hbuf
  refine ⟨?_, hs, p, t, hpt, hbuf⟩
  unfold writeField
  rcases hw : msgField n s with ⟨b1, s1⟩
  rw [hw] at h
  simp only at h
  subst h
  rfl

/-- Witness for C6: opening `data` on the always-failing sink. -/
theorem claim6_open_failure_witness :
    ((msgField FieldName.data (initState failSink)).1 = false) ∧
    (writeField FieldName.data [97] (initState failSink) =
        (msgField FieldName.data (initState failSink)).2 ∧
      (msgField FieldName.data (initState failSink)).2.sink =
        (initState failSink).sink ∧
      (∃ p t, p ++ t = fieldNameBytes FieldName.data ++ [58] ∧
        (msgField FieldName.data (initState failSink)).2.buf =
          (initState failSink).buf ++ p)) :=
  ⟨by decide, claim6_open_failure FieldName.data [97] (initState failSink)
    (by decide)⟩

/-- C7: every successful field-selection call (`data`, `event`, `id`, `retry`
— the closed set `FieldName`) has written exactly `name ++ ":"`, with no
trailing newline, to the sink by the time it returns, and leaves the sink
behaviour unchanged; so the prefix has reached the sink before any field
writer is visible to the caller. -/
theorem claim7_prefix_before_return (n : FieldName) (s : SinkState)
    (h : (msgField n s).1 = true) :
    (msgField n s).2.buf = s.buf ++ fieldNameBytes n ++ [58] ∧
    (msgField n s).2.sink = s.sink := by
  rw [msgField_eq] at h ⊢
  obtain ⟨hs, _, p, t, hpt, hbuf, hfull⟩ := sseFieldNew_spec (fieldNameBytes n) s
  rw [hfull h, List.append_nil] at hpt
  subst hpt
  refine ⟨?_, hs⟩
  rw [hbuf, List.append_assoc]

/-- Witness for C7: opening `retry` on the fresh always-succeeding sink. -/
theorem claim7_prefix_before_return_witness :
    ((msgField FieldName.retry (initState okSink)).1 = true) ∧
    ((msgField FieldName.retry (initState okSink)).2.buf =
        (initState okSink).buf ++ fieldNameBytes FieldName.retry ++ [58] ∧
      (msgField FieldName.retry (initState okSink)).2.sink =
        (initState okSink).sink) :=
  ⟨by decide, claim7_prefix_before_return FieldName.retry (initState okSink)
    (by decide)⟩

/-- C8: constructing a message writer with `new(sink)` performs no I/O at all:
the sink state — bytes received, operation trace, everything — is unchanged by
construction. -/
theorem claim8_new_no_io (s : SinkState) : sseMessageNew s = s := rfl

/-- C9: releasing a field writer issues exactly one `write`, of the single
byte `"\n"`, and never a flush; and this layer flushes the sink only when a
message writer is released or when the caller invokes the explicit flush of an
open field writer — every other operation (construction, field opening, value
writes, field release) issues write calls only. -/
theorem claim9_flush_discipline (s : SinkState) (c : Bytes) (n : FieldName) :
    (sseFieldDrop s).trace = s.trace ++ [SinkOp.write [10]] ∧
    (sseFieldWrite c s).2.trace = s.trace ++ [SinkOp.write c] ∧
    sseMessageNew s = s ∧
    (∃ l, (msgField n s).2.trace = s.trace ++ l ∧
      ∀ e ∈ l, ∃ ch, e = SinkOp.write ch) ∧
    (sseFieldFlush s).2.trace = s.trace ++ [SinkOp.flush] ∧
    (sseMessageDrop s).trace = s.trace ++ [SinkOp.write [10], SinkOp.flush] := by
  obtain ⟨_, ⟨l, hl, hlw⟩, _⟩ := sseFieldNew_spec (fieldNameBytes n) s
  rw [← msgField_eq] at hl
  have h1 := (sinkWrite_snd s [10]).2
  refine ⟨(sinkWrite_snd s [10]).2, (sinkWrite_snd s c).2, rfl, ⟨l, hl, hlw⟩,
    rfl, ?_⟩
  unfold sseMessageDrop
  simp [sinkFlush, h1]

/-- C10: a message writer created over a sink and released with no field
operation emits exactly the single newline byte — the message terminator alone
— and then flushes: an empty message produces a bare blank line, not
nothing. -/
theorem claim10_empty_message (s : SinkState) (h : s.sink = okSink) :
    (sseMessageDrop (sseMessageNew s)).buf = s.buf ++ [10] ∧
    (sseMessageDrop (sseMessageNew s)).trace =
      s.trace ++ [SinkOp.write [10], SinkOp.flush] := by
  obtain ⟨hb, ht, _⟩ := sseMessageDrop_okSink s h
  exact ⟨hb, ht⟩

/-- Witness for C10: the fresh always-succeeding sink. -/
theorem claim10_empty_message_witness :
    ((initState okSink).sink = okSink) ∧
    ((sseMessageDrop (sseMessageNew (initState okSink))).buf =
        (initState okSink).buf ++ [10] ∧
      (sseMessageDrop (sseMessageNew (initState okSink))).trace =
        (initState okSink).trace ++ [SinkOp.write [10], SinkOp.flush]) :=
  ⟨rfl, claim10_empty_message (initState okSink) rfl⟩
